import Mathlib

/-!
Shallow embedding of the query-resolution pipeline of the watch-catalog
chat service: the price text parser, the live-price resolver with its
five-minute cache, the Exa-response candidate extraction, the Pinecone
top-match normalization, and the POST request handler.

Strings are modelled as Lean `String`/`List Char`; JavaScript numbers as
`ℚ` (exact rationals; every numeric value occurring in the claims is
exactly representable as a double); nullable values as `Option`;
fallible collaborator calls as `Except String`-valued oracles supplied
as parameters.  JavaScript truthiness on the relevant types is modelled
explicitly: a number is falsy exactly when it is 0 (NaN never arises in
the embedded fragment), a string exactly when it is empty, and
null/undefined is `none`.
-/

/-- ASCII fragment of the whitespace class used by both the regex
escape hand and `String.prototype.trim` (space, tab, LF, CR, VT, FF);
all inputs in the claims are ASCII. -/
def isJsSpace (c : Char) : Bool :=
  c = ' ' || c = '\t' || c = '\n' || c = '\r' || c = '\x0b' || c = '\x0c'

/-- ASCII fragment of `String.prototype.toLowerCase` (A-Z map to a-z,
everything else is fixed). -/
def jsCharToLower (c : Char) : Char :=
  match c with
  | 'A' => 'a' | 'B' => 'b' | 'C' => 'c' | 'D' => 'd' | 'E' => 'e'
  | 'F' => 'f' | 'G' => 'g' | 'H' => 'h' | 'I' => 'i' | 'J' => 'j'
  | 'K' => 'k' | 'L' => 'l' | 'M' => 'm' | 'N' => 'n' | 'O' => 'o'
  | 'P' => 'p' | 'Q' => 'q' | 'R' => 'r' | 'S' => 's' | 'T' => 't'
  | 'U' => 'u' | 'V' => 'v' | 'W' => 'w' | 'X' => 'x' | 'Y' => 'y'
  | 'Z' => 'z' | c => c

/-- Strip leading JS whitespace. -/
def jsTrimL (l : List Char) : List Char := l.dropWhile isJsSpace

/-- Strip trailing JS whitespace. -/
def jsTrimR (l : List Char) : List Char := (l.reverse.dropWhile isJsSpace).reverse

/-- `String.prototype.trim`: strip whitespace from both ends. -/
def jsTrim (l : List Char) : List Char := jsTrimR (jsTrimL l)

def jsStrToLower (s : String) : String := String.mk (s.data.map jsCharToLower)

def jsTrimStr (s : String) : String := String.mk (jsTrim s.data)

/-- `makeCacheKey` (lib/livePriceNoUrls.js): lower-case and trim each of
brand, model, reference (a missing field is the empty string) and join
with pipes. -/
def makeCacheKey (brand model ref : String) : String :=
  jsTrimStr (jsStrToLower brand) ++ "|" ++ jsTrimStr (jsStrToLower model) ++ "|"
    ++ jsTrimStr (jsStrToLower ref)

/-- Character class `[0-9.,]` of the price regex. -/
def isNumChar (c : Char) : Bool := c.isDigit || c = '.' || c = ','

/-- Currency alternatives of the price regex
`(USD|EUR|GBP|CHF|INR|\$|€|£|₹)`, in alternation order. -/
def currencyAlts : List (List Char) :=
  ["USD".data, "EUR".data, "GBP".data, "CHF".data, "INR".data,
   "$".data, "€".data, "£".data, "₹".data]

/-- Case-insensitive match of the pattern `p` against a prefix of `l`
(the `i` flag of the regex): returns the matched text (original case)
and the remainder. -/
def ciConsume : List Char → List Char → Option (List Char × List Char)
  | [], l => some ([], l)
  | _ :: _, [] => none
  | p :: ps, c :: cs =>
    if jsCharToLower c = jsCharToLower p then
      match ciConsume ps cs with
      | some (m, r) => some (c :: m, r)
      | none => none
    else none

/-- First pattern in the list whose matcher succeeds (regex alternation
at a fixed position). -/
def firstSome : List (List Char) → (List Char → Option (List Char × List Char)) →
    Option (List Char × List Char)
  | [], _ => none
  | a :: as, f =>
    match f a with
    | some b => some b
    | none => firstSome as f

/-- Try each currency alternative at the current position.  All
alternatives start with case-insensitively distinct characters, so at
most one can match. -/
def matchCurrencyAt (l : List Char) : Option (List Char × List Char) :=
  firstSome currencyAlts (fun alt => ciConsume alt l)

/-- The `\s?([0-9.,]{2,})` tail of the price regex: optionally consume
one whitespace character (greedy, with backtracking subsumed: a
whitespace character is never in `[0-9.,]`), then a maximal run of at
least two number-class characters.  Returns (consumed text, group 2). -/
def matchAfterCurrency (rest : List Char) : Option (List Char × List Char) :=
  match rest with
  | [] => none
  | c :: cs =>
    if isJsSpace c then
      let num := cs.takeWhile isNumChar
      if 2 ≤ num.length then some (c :: num, num) else none
    else
      let num := (c :: cs).takeWhile isNumChar
      if 2 ≤ num.length then some (num, num) else none

/-- Leftmost match of
`(USD|EUR|GBP|CHF|INR|\$|€|£|₹)\s?([0-9.,]{2,})/i`: scan positions left
to right; at each position try the currency alternation and then the
numeric tail.  Returns (whole match m[0], group 1, group 2). -/
def findPriceMatch : List Char → Option (List Char × List Char × List Char)
  | [] => none
  | c :: cs =>
    match matchCurrencyAt (c :: cs) with
    | some (cur, rest) =>
      match matchAfterCurrency rest with
      | some (consumed, num) => some (cur ++ consumed, cur, num)
      | none => findPriceMatch cs
    | none => findPriceMatch cs

def digitsToNat (l : List Char) : ℕ :=
  l.foldl (fun n c => 10 * n + (c.toNat - '0'.toNat)) 0

/-- `parseFloat` on the strings reaching it here (digits and dots only,
commas already removed): leading digits, optionally a dot and fraction
digits; NaN (`none`) when there is no digit in either position.
Exact-rational model of the double value; every value occurring in the
claims is exactly representable. -/
def jsParseFloat (l : List Char) : Option ℚ :=
  let ip := l.takeWhile Char.isDigit
  let rest := l.drop ip.length
  let fp :=
    match rest with
    | '.' :: t => t.takeWhile Char.isDigit
    | _ => []
  if ip.isEmpty && fp.isEmpty then none
  else some (mkRat (digitsToNat ip * 10 ^ fp.length + digitsToNat fp) (10 ^ fp.length))

/-- Result of `parsePriceFromText`: `value` is absent when the numeric
token did not parse; `currency` and `raw` are always present on a
match. -/
structure PriceCandidate where
  value : Option ℚ
  currency : String
  raw : String
deriving DecidableEq

/-- `parsePriceFromText` (lib/livePriceNoUrls.js lines 15-25): regex
match, strip whitespace and commas from group 2, `parseFloat`; keep the
partial `{raw, currency}` evidence when the number is NaN. -/
def parsePriceFromText (text : String) : Option PriceCandidate :=
  if text = "" then none
  else
    match findPriceMatch text.data with
    | none => none
    | some (m0, m1, m2) =>
      let rawNum := m2.filter (fun c => !(isJsSpace c))
      let numStr := rawNum.filter (fun c => !(c = ','))
      match jsParseFloat numStr with
      | none => some { value := none, currency := String.mk m1, raw := String.mk m0 }
      | some v => some { value := some v, currency := String.mk m1, raw := String.mk m0 }

/-- JS truthiness of a nullable number: null/undefined and 0 are falsy
(NaN never arises here). -/
def truthyN (o : Option ℚ) : Bool :=
  match o with
  | some v => v ≠ 0
  | none => false

/-- JS truthiness of a nullable string: null/undefined and "" are falsy. -/
def truthyS (o : Option String) : Bool :=
  match o with
  | some s => s ≠ ""
  | none => false

/-- `x || null` on a nullable number. -/
def orElseN (a : Option ℚ) : Option ℚ := if truthyN a then a else none

/-- `x || null` on a nullable string. -/
def orElseS (a : Option String) : Option String := if truthyS a then a else none

/-- `a || b || null` on nullable strings. -/
def jsOrS (a b : Option String) : Option String :=
  if truthyS a then a else if truthyS b then b else none

/-- `a || d` with a non-null string default. -/
def jsOrD (a : Option String) (d : String) : String :=
  match a with
  | some s => if s = "" then d else s
  | none => d

/-- `a || d` where `a` is a plain string. -/
def jsOrD' (a : String) (d : String) : String := if a = "" then d else a

/-- `a || ""` on a nullable string. -/
def jsStrD (a : Option String) : String :=
  match a with
  | some s => s
  | none => ""

/-- Structured `price` object of an Exa response or of one of its
results. -/
structure ExaPrice where
  value : Option ℚ
  currency : Option String
  raw : Option String
deriving DecidableEq

/-- One entry of the Exa `results` array. -/
structure ExaResult where
  price : Option ExaPrice
  title : Option String
  snippet : Option String
  summary : Option String
  url : Option String
  source : Option String
deriving DecidableEq

/-- Shape of the JSON body returned by the Exa search call. -/
structure ExaData where
  price : Option ExaPrice
  results : Option (List ExaResult)
  text : Option String
  source : Option String
deriving DecidableEq

/-- Price candidate extracted from an Exa response (spread of a parser
candidate or of a structured price, plus a source). -/
structure Candidate where
  value : Option ℚ
  currency : Option String
  raw : Option String
  source : Option String
deriving DecidableEq

/-- Per-result text fallback of the extraction loop: join title,
snippet and summary with spaces and run the price text parser. -/
def textCandidate (r : ExaResult) : Option Candidate :=
  match parsePriceFromText (jsStrD r.title ++ " " ++ jsStrD r.snippet ++ " " ++ jsStrD r.summary) with
  | some pc => some ⟨pc.value, some pc.currency, some pc.raw, jsOrS r.url r.source⟩
  | none => none

/-- Body of the `for (const r of data.results)` loop: prefer the
result's structured price (when truthy), else parse its text. -/
def resultCandidate (r : ExaResult) : Option Candidate :=
  match r.price with
  | some p =>
    if truthyN p.value || truthyS p.raw then
      some ⟨orElseN p.value, orElseS p.currency, orElseS p.raw, jsOrS r.url r.source⟩
    else textCandidate r
  | none => textCandidate r

/-- The extraction loop: first result that yields a candidate. -/
def firstResult : List ExaResult → Option Candidate
  | [] => none
  | r :: rs =>
    match resultCandidate r with
    | some c => some c
    | none => firstResult rs

/-- `extractCandidateFromExaResponse` (lib/livePriceNoUrls.js lines
51-90), translated with the early returns rendered as nested fallbacks:
1) top-level structured price, 2) results array, 3) top-level raw
text. -/
def extractCandidateFromExaResponse (data : Option ExaData) : Option Candidate :=
  match data with
  | none => none
  | some d =>
    let step3 : Option Candidate :=
      match d.text with
      | some t =>
        if t = "" then none
        else
          match parsePriceFromText t with
          | some pc => some ⟨pc.value, some pc.currency, some pc.raw, orElseS d.source⟩
          | none => none
      | none => none
    let step2 : Option Candidate :=
      match d.results with
      | some rs =>
        if rs.isEmpty then step3
        else
          match firstResult rs with
          | some c => some c
          | none => step3
      | none => step3
    match d.price with
    | some p =>
      if truthyN p.value || truthyS p.raw then
        some ⟨orElseN p.value, orElseS p.currency, orElseS p.raw, orElseS d.source⟩
      else step2
    | none => step2

/-- Stage (a) of the fallback chain, as its own function: the top-level
structured price, when present and truthy. -/
def stageA (d : ExaData) : Option Candidate :=
  match d.price with
  | some p =>
    if truthyN p.value || truthyS p.raw then
      some ⟨orElseN p.value, orElseS p.currency, orElseS p.raw, orElseS d.source⟩
    else none
  | none => none

/-- Stage (b): the ranked results list, first entry carrying a truthy
structured price or parsable text. -/
def stageB (d : ExaData) : Option Candidate :=
  match d.results with
  | some rs => if rs.isEmpty then none else firstResult rs
  | none => none

/-- Stage (c): the response's own top-level free text. -/
def stageC (d : ExaData) : Option Candidate :=
  match d.text with
  | some t =>
    if t = "" then none
    else
      match parsePriceFromText t with
      | some pc => some ⟨pc.value, some pc.currency, some pc.raw, orElseS d.source⟩
      | none => none
  | none => none

/-- The `out` record built by a successful resolution (value, currency,
raw coalesced through `|| null`, source with the `"exa-search"`
default, ISO resolution timestamp). -/
structure LiveOut where
  value : Option ℚ
  currency : Option String
  raw : Option String
  source : String
  ts : String
deriving DecidableEq

/-- One cache slot: acquisition instant (ms) and the stored payload. -/
structure CacheEntry where
  ts : ℕ
  value : LiveOut
deriving DecidableEq

/-- The process-wide `cache` Map, modelled as an association list whose
head shadows older entries (the observable lookup behavior of
`Map.set`/`Map.get`). -/
def Cache := List (String × CacheEntry)
deriving DecidableEq

def cacheGet (c : Cache) (k : String) : Option CacheEntry := List.lookup k c

def CACHE_TTL_MS : ℕ := 5 * 60 * 1000

/-- Result of one `getLivePriceNoUrl` call: the returned value (with
the spread-in `cached: true` marker modelled as the Bool), the cache
after the call, and whether the Exa provider was consulted. -/
structure ResolveOut where
  result : Option (LiveOut × Bool)
  cache' : Cache
  providerCalled : Bool
deriving DecidableEq

/-- `getLivePriceNoUrl` (lib/livePriceNoUrls.js lines 96-127).  The Exa
call is an oracle: `Except.error` models a thrown/non-success provider
call (the `catch` branch), `Except.ok` the parsed JSON (possibly
null).  Time (`now`, in ms) and the ISO timestamp are passed in.
Elapsed time is `ℕ`-truncated subtraction, which agrees with the JS
signed subtraction on the freshness comparison. -/
def getLivePriceNoUrl (brand model ref : String) (exa : Except String (Option ExaData))
    (cache : Cache) (now : ℕ) (iso : String) : ResolveOut :=
  let key := makeCacheKey brand model ref
  let hit : Option CacheEntry :=
    match cacheGet cache key with
    | some cached => if now - cached.ts < CACHE_TTL_MS then some cached else none
    | none => none
  match hit with
  | some cached => ⟨some (cached.value, true), cache, false⟩
  | none =>
    match exa with
    | Except.error _ => ⟨none, cache, true⟩
    | Except.ok data =>
      match extractCandidateFromExaResponse data with
      | some cand =>
        let out : LiveOut :=
          ⟨orElseN cand.value, orElseS cand.currency, orElseS cand.raw,
            jsOrD cand.source "exa-search", iso⟩
        ⟨some (out, false), (key, ⟨now, out⟩) :: cache, true⟩
      | none => ⟨none, cache, true⟩

/-- Metadata object of a Pinecone match (all fields optional in the
wire shape). -/
structure PineMeta where
  id : Option String
  brand : Option String
  model_name : Option String
  reference_number : Option String
  description : Option String
  category : Option String
  movement : Option String
  caliber : Option String
deriving DecidableEq

def PineMeta.empty : PineMeta := ⟨none, none, none, none, none, none, none, none⟩

/-- One Pinecone match: id, similarity score, metadata. -/
structure PineMatch where
  id : Option String
  score : Option ℚ
  metadata : Option PineMeta
deriving DecidableEq

/-- Body of the Pinecone query response.  The JSON field is named
`matches`, which is a reserved word in Lean, hence `matchList`. -/
structure PineconeResponse where
  matchList : Option (List PineMatch)
deriving DecidableEq

/-- `(pineconeResponse && pineconeResponse.matches) || []`: the
response itself and its `matches` field are both nullable; an array is
always truthy. -/
def matchesOf (p : Option PineconeResponse) : List PineMatch :=
  match p with
  | none => []
  | some pr => pr.matchList.getD []

/-- Normalized top-match record produced by `extractTopMetadata`. -/
structure TopMetadata where
  id : Option String
  score : Option ℚ
  brand : String
  model_name : String
  reference_number : String
  description : String
  category : String
  movement : String
  caliber : String
deriving DecidableEq

/-- `extractTopMetadata`, first draft (route.ts lines 389-405): score is
taken with `top.score ?? null`, which keeps a score of 0. -/
def extractTopMetadata (p : Option PineconeResponse) : Option TopMetadata :=
  match matchesOf p with
  | [] => none
  | top :: _ =>
    let metadata := top.metadata.getD PineMeta.empty
    some
      { id := jsOrS top.id metadata.id
        score := top.score
        brand := jsStrD metadata.brand
        model_name := jsStrD metadata.model_name
        reference_number := jsStrD metadata.reference_number
        description := jsStrD metadata.description
        category := jsStrD metadata.category
        movement := jsStrD metadata.movement
        caliber := jsStrD metadata.caliber }

/-- `extractTopMetadata`, second draft (route.ts lines 538-554): scores
taken with `top.score || null`, which collapses a score of 0 to null. -/
def extractTopMetadata2 (p : Option PineconeResponse) : Option TopMetadata :=
  match matchesOf p with
  | [] => none
  | top :: _ =>
    let metadata := top.metadata.getD PineMeta.empty
    some
      { id := jsOrS top.id metadata.id
        score := orElseN top.score
        brand := jsStrD metadata.brand
        model_name := jsStrD metadata.model_name
        reference_number := jsStrD metadata.reference_number
        description := jsStrD metadata.description
        category := jsStrD metadata.category
        movement := jsStrD metadata.movement
        caliber := jsStrD metadata.caliber }

/-- Prefix test on character lists. -/
def listIsPrefixOf : List Char → List Char → Bool
  | [], _ => true
  | _ :: _, [] => false
  | p :: ps, c :: cs => p = c && listIsPrefixOf ps cs

/-- Substring test on character lists. -/
def listIsInfixOf (p : List Char) (l : List Char) : Bool :=
  match l with
  | [] => listIsPrefixOf p []
  | _ :: cs => listIsPrefixOf p l || listIsInfixOf p cs

/-- The price-intent vocabulary of the route's regex
`/price|cost|market|listing|resale|sell|how much|current price|value/i`. -/
def priceTerms : List String :=
  ["price", "cost", "market", "listing", "resale", "sell", "how much",
   "current price", "value"]

/-- `needsPrice`: the case-insensitive regex test, i.e. the lowered
question contains one of the (lower-case) vocabulary terms. -/
def priceIntent (q : String) : Bool :=
  priceTerms.any (fun t => listIsInfixOf t.data (q.data.map jsCharToLower))

/-- One provenance record `{source, raw}` of a price-bearing answer. -/
structure ProvEntry where
  source : String
  raw : String
deriving DecidableEq

/-- JSON response of the POST handler, flattened: the fields that can
occur, plus the HTTP status. -/
structure ApiResponse where
  answer : Option String
  error : Option String
  metadata : Option TopMetadata
  provenance : Option (List ProvEntry)
  status : ℕ
deriving DecidableEq

/-- Result of a POST invocation: the response, the cache after the
request, whether the Exa provider was consulted, and whether
`getLivePriceNoUrl` was invoked at all. -/
structure PipelineOut where
  resp : ApiResponse
  cache' : Cache
  exaCalled : Bool
  resolverInvoked : Bool
deriving DecidableEq

/-- Embedding vectors are opaque to the pipeline logic. -/
def Embedding := List ℚ

/-- JS string interpolation of the resolved numeric value.  Integral
values print as their digits (the only case the claims exercise);
non-integral rationals are rendered as a fraction, where the JS float
formatting would differ. -/
def numToString (q : ℚ) : String :=
  if q.den = 1 then toString q.num else toString q.num ++ "/" ++ toString q.den

/-- `${live.value}` where the value may be null. -/
def optNumToString (o : Option ℚ) : String :=
  match o with
  | some q => numToString q
  | none => "null"

def noCatalogMsg : String :=
  "I couldn\x27t find a matching model in the catalog. Try asking about a specific brand/model."

def helperUnavailableMsg (meta : TopMetadata) : String :=
  "Live price lookup is not available. Here\x27s catalog info:\n\n" ++ meta.brand ++ " "
    ++ meta.model_name ++ " (" ++ meta.reference_number ++ ")\n" ++ meta.description

def liveAnswerString (out : LiveOut) : String :=
  "Live listing: " ++ jsStrD out.currency ++ " " ++ optNumToString out.value
    ++ " — source: " ++ jsOrD' out.source "web search" ++ " (as of " ++ out.ts ++ ")."

def degradedMsg (meta : TopMetadata) : String :=
  "I couldn\x27t fetch a clear live listing price right now. Here\x27s the catalog info I found:\n\n"
    ++ meta.brand ++ " " ++ meta.model_name ++ " (" ++ meta.reference_number ++ ")\n"
    ++ meta.description

def catalogMsg (meta : TopMetadata) : String :=
  meta.brand ++ " " ++ meta.model_name ++ " (" ++ meta.reference_number ++ "):\n"
    ++ meta.description

/-- `POST` (app/api/chat/route.ts lines 408-482).  Collaborators are
oracles: `embed` is the embedding call's outcome, `pine` the Pinecone
query's outcome (a nullable JSON body on success), `helperAvailable`
whether the dynamic import of the live-price helper produced a
function, and `exa`/`cache`/`now`/`iso` are threaded to
`getLivePriceNoUrl`.  Thrown collaborator errors are caught at the
handler boundary and become a 500 `{error}` response; an
empty-after-trim question is a 400 `{error}` response. -/
def POST (question : String) (embed : Except String Embedding)
    (pine : Except String (Option PineconeResponse)) (helperAvailable : Bool)
    (exa : Except String (Option ExaData)) (cache : Cache) (now : ℕ) (iso : String) :
    PipelineOut :=
  if question = "" then ⟨⟨none, some "question required", none, none, 400⟩, cache, false, false⟩
  else if jsTrimStr question = "" then
    ⟨⟨none, some "question required", none, none, 400⟩, cache, false, false⟩
  else
    match embed with
    | Except.error e => ⟨⟨none, some e, none, none, 500⟩, cache, false, false⟩
    | Except.ok _ =>
      match pine with
      | Except.error e => ⟨⟨none, some e, none, none, 500⟩, cache, false, false⟩
      | Except.ok presp =>
        match extractTopMetadata presp with
        | none => ⟨⟨some noCatalogMsg, none, none, none, 200⟩, cache, false, false⟩
        | some meta =>
          if priceIntent question then
            if helperAvailable then
              match getLivePriceNoUrl meta.brand meta.model_name meta.reference_number
                  exa cache now iso with
              | ⟨some (out, _), cache2, called⟩ =>
                ⟨⟨some (liveAnswerString out), none, some meta,
                    some [⟨jsOrD' out.source "exa", jsStrD out.raw⟩], 200⟩,
                  cache2, called, true⟩
              | ⟨none, cache2, called⟩ =>
                ⟨⟨some (degradedMsg meta), none, some meta, none, 200⟩, cache2, called, true⟩
            else
              ⟨⟨some (helperUnavailableMsg meta), none, some meta, none, 200⟩,
                cache, false, false⟩
          else ⟨⟨some (catalogMsg meta), none, some meta, none, 200⟩, cache, false, false⟩

/-- A currency-adjacent numeric pattern occurs somewhere in the text:
at some position, a currency alternative (case-insensitively), then
optionally one whitespace character, then at least two number-class
characters. -/
def HasPricePattern (l : List Char) : Prop :=
  ∃ pre m1 wsOpt m2 suf alt,
    alt ∈ currencyAlts ∧ m1.map jsCharToLower = alt.map jsCharToLower ∧
    (wsOpt = [] ∨ ∃ w, isJsSpace w = true ∧ wsOpt = [w]) ∧
    (∀ c ∈ m2, isNumChar c = true) ∧ 2 ≤ m2.length ∧
    l = pre ++ m1 ++ wsOpt ++ m2 ++ suf

/-- `t` is obtained from `s` by changing letter case and adding leading
and/or trailing whitespace. -/
def fieldVariant (s t : List Char) : Prop :=
  ∃ w1 u w2,
    (∀ c ∈ w1, isJsSpace c = true) ∧ (∀ c ∈ w2, isJsSpace c = true) ∧
    t = w1 ++ u ++ w2 ∧ u.map jsCharToLower = s.map jsCharToLower

/-- Concrete scenario data: the C4 spec scenario question. -/
def q4 : String := "What\x27s the Submariner selling for right now?"

def pineMeta4 : PineMeta :=
  ⟨none, some "Rolex", some "Submariner", some "126610LN", some "A dive watch.",
    none, none, none⟩

def pineResp4 : Option PineconeResponse :=
  some ⟨some [⟨some "watch-1", some 1, some pineMeta4⟩]⟩

def chronoUrl : String := "https://www.chrono24.com/listing/123"

def exaResult4 : ExaResult :=
  ⟨none, none, some "This Rolex is listed at $9,500 on Chrono24 today", none,
    some chronoUrl, none⟩

def exaData4 : Option ExaData := some ⟨none, some [exaResult4], none, none⟩

def iso4 : String := "2026-01-01T00:00:00.000Z"

/-- Concrete Exa response with both a top-level and a per-result
structured price (for the C1 witness). -/
def exaDataBoth : ExaData :=
  ⟨some ⟨some 5, some "USD", some "five"⟩,
    some [⟨some ⟨some 7, some "EUR", some "seven"⟩, none, none, none,
      some "https://r.example", none⟩],
    none, some "https://top.example"⟩

/-- Concrete stored payload and warm cache (for the C3 witness). -/
def wOut : LiveOut := ⟨some 10, some "$", some "$10", "src", "t0"⟩

def wCache : Cache := [("a|b|c", ⟨0, wOut⟩)]

/-- Pinecone responses whose single match carries score 0 / score 1
(for C10). -/
def pScore0 : Option PineconeResponse := some ⟨some [⟨some "m", some 0, none⟩]⟩

def pScore1 : Option PineconeResponse := some ⟨some [⟨some "m", some 1, none⟩]⟩

/-! ## Helper lemmas -/

theorem str_eq_empty_iff (s : String) : s = "" ↔ s.data = [] := by
  constructor
  · intro h; rw [h]
  · intro h; cases s with
    | mk data => rw [show data = [] from h]

theorem orElseN_eq_self (o : Option ℚ) (h : o ≠ some 0) : orElseN o = o := by
  cases o with
  | none => rfl
  | some v =>
    have hv : v ≠ 0 := fun hv => h (by rw [hv])
    simp [orElseN, truthyN, hv]

theorem jsCharToLower_ws {c : Char} (h : isJsSpace c = true) : jsCharToLower c = c := by
  simp only [isJsSpace, Bool.or_eq_true, decide_eq_true_eq, or_assoc] at h
  rcases h with rfl | rfl | rfl | rfl | rfl | rfl <;> rfl

theorem map_lower_ws {w : List Char} (h : ∀ c ∈ w, isJsSpace c = true) :
    w.map jsCharToLower = w := by
  rw [List.map_congr_left (fun c hc => jsCharToLower_ws (h c hc))]
  exact List.map_id w

theorem jsTrimL_ws_append {w : List Char} (l : List Char)
    (h : ∀ c ∈ w, isJsSpace c = true) : jsTrimL (w ++ l) = jsTrimL l := by
  induction w with
  | nil => rfl
  | cons c cs ih =>
    have hc : isJsSpace c = true := h c (List.mem_cons_self c cs)
    simp only [jsTrimL, List.cons_append, List.dropWhile_cons, hc, if_true]
    exact ih (fun x hx => h x (List.mem_cons_of_mem c hx))

theorem jsTrimR_append_ws {w : List Char} (l : List Char)
    (h : ∀ c ∈ w, isJsSpace c = true) : jsTrimR (l ++ w) = jsTrimR l := by
  have hrev : ∀ c ∈ w.reverse, isJsSpace c = true := fun c hc =>
    h c (List.mem_reverse.mp hc)
  simp only [jsTrimR, List.reverse_append]
  rw [show List.dropWhile isJsSpace (w.reverse ++ l.reverse)
      = List.dropWhile isJsSpace l.reverse from jsTrimL_ws_append l.reverse hrev]

theorem jsTrimR_ws {w : List Char} (h : ∀ c ∈ w, isJsSpace c = true) :
    jsTrimR w = [] := by
  have : List.dropWhile isJsSpace w.reverse = [] :=
    List.dropWhile_eq_nil_iff.mpr (fun c hc => h c (List.mem_reverse.mp hc))
  simp [jsTrimR, this]

theorem jsTrim_ws_append {w : List Char} (l : List Char)
    (h : ∀ c ∈ w, isJsSpace c = true) : jsTrim (w ++ l) = jsTrim l := by
  simp only [jsTrim]
  rw [jsTrimL_ws_append l h]

theorem jsTrim_append_ws {w : List Char} (l : List Char)
    (h : ∀ c ∈ w, isJsSpace c = true) : jsTrim (l ++ w) = jsTrim l := by
  simp only [jsTrim, jsTrimL]
  rw [List.dropWhile_append]
  by_cases he : (List.dropWhile isJsSpace l).isEmpty
  · rw [if_pos he]
    have hws : ∀ c ∈ List.dropWhile isJsSpace w, isJsSpace c = true := fun c hc =>
      h c ((List.dropWhile_sublist (p := isJsSpace)).subset hc)
    rw [List.isEmpty_iff.mp he, jsTrimR_ws hws]
    rfl
  · rw [if_neg he]
    exact jsTrimR_append_ws _ h

theorem norm_fieldVariant {s t : List Char} (h : fieldVariant s t) :
    jsTrim (t.map jsCharToLower) = jsTrim (s.map jsCharToLower) := by
  obtain ⟨w1, u, w2, h1, h2, rfl, hu⟩ := h
  rw [List.map_append, List.map_append, map_lower_ws h1, map_lower_ws h2,
    jsTrim_append_ws _ h2, jsTrim_ws_append _ h1, hu]

/-! ## C7: cache-key normalization -/

/-- C7: the cache key is invariant under changes of letter case and
under leading/trailing whitespace in each of the brand, model and
reference fields; in particular the two `resolve` calls of the spec
scenario compute the same normalized key. -/
theorem makeCacheKey_invariant (b m r b2 m2 r2 : String)
    (hb : fieldVariant b.data b2.data) (hm : fieldVariant m.data m2.data)
    (hr : fieldVariant r.data r2.data) :
    makeCacheKey b2 m2 r2 = makeCacheKey b m r := by
  have e : ∀ x y : String, fieldVariant x.data y.data →
      jsTrimStr (jsStrToLower y) = jsTrimStr (jsStrToLower x) := by
    intro x y hxy
    show String.mk (jsTrim (y.data.map jsCharToLower))
      = String.mk (jsTrim (x.data.map jsCharToLower))
    exact congrArg String.mk (norm_fieldVariant hxy)
  unfold makeCacheKey
  rw [e b b2 hb, e m m2 hm, e r r2 hr]

/-- C7 witness: the spec's concrete instance, via the theorem. -/
theorem makeCacheKey_invariant_witness :
    makeCacheKey "rolex" " submariner " "126610ln"
      = makeCacheKey "Rolex" "Submariner" "126610LN" :=
  makeCacheKey_invariant "Rolex" "Submariner" "126610LN" "rolex" " submariner " "126610ln"
    ⟨[], "rolex".data, [], (by intro c hc; cases hc), (by intro c hc; cases hc),
      (by simp), (by decide)⟩
    ⟨[' '], "submariner".data, [' '], (by intro c hc; simp at hc; rw [hc]; rfl),
      (by intro c hc; simp at hc; rw [hc]; rfl), (by simp), (by decide)⟩
    ⟨[], "126610ln".data, [], (by intro c hc; cases hc), (by intro c hc; cases hc),
      (by simp), (by decide)⟩

/-! ## C10: the two extractTopMetadata drafts -/

/-- C10 counterexample: on a response whose top match carries score 0,
the `?? null` draft keeps the score and the `|| null` draft nulls it,
so the claimed equality fails at this input. -/
theorem extractTopMetadata_drafts_differ_at_zero :
    extractTopMetadata pScore0 ≠ extractTopMetadata2 pScore0 := by decide

/-- C10 amended: the two drafts agree on every response whose top match
does not carry a similarity score of exactly 0 (score absent or
non-zero). -/
theorem extractTopMetadata_drafts_agree (p : Option PineconeResponse)
    (h : ∀ top rest, matchesOf p = top :: rest → top.score ≠ some 0) :
    extractTopMetadata p = extractTopMetadata2 p := by
  unfold extractTopMetadata extractTopMetadata2
  cases hm : matchesOf p with
  | nil => rfl
  | cons top rest =>
    dsimp only
    rw [orElseN_eq_self top.score (h top rest hm)]

/-- C10 witness: a score-1 response, via the theorem. -/
theorem extractTopMetadata_drafts_agree_witness :
    extractTopMetadata pScore1 = extractTopMetadata2 pScore1 :=
  extractTopMetadata_drafts_agree pScore1 (by
    intro top rest h
    have h' : ([⟨some "m", some 1, none⟩] : List PineMatch) = top :: rest := h
    have ht : top = ⟨some "m", some 1, none⟩ := ((List.cons.injEq _ _ _ _).mp h').1.symm
    rw [ht]
    decide)

/-! ## C2: failed resolutions return none and are never cached -/

/-- C2: when the resolver consults the provider and the call throws, or
succeeds but no candidate can be extracted, the resolver returns `none`
(the model is total, so no exception propagates) and the cache is left
unchanged; conversely any cache change comes from a successful
resolution, whose freshly built payload is written under the
normalized key. -/
theorem resolver_failure_returns_none (brand model ref : String)
    (exa : Except String (Option ExaData)) (cache : Cache) (now : ℕ) (iso : String) :
    ((getLivePriceNoUrl brand model ref exa cache now iso).providerCalled = true →
      ((∃ e, exa = Except.error e) ∨
        ∃ d, exa = Except.ok d ∧ extractCandidateFromExaResponse d = none) →
      getLivePriceNoUrl brand model ref exa cache now iso = ⟨none, cache, true⟩) ∧
    ((getLivePriceNoUrl brand model ref exa cache now iso).cache' ≠ cache →
      ∃ out, (getLivePriceNoUrl brand model ref exa cache now iso).result
          = some (out, false) ∧
        (getLivePriceNoUrl brand model ref exa cache now iso).cache'
          = (makeCacheKey brand model ref, ⟨now, out⟩) :: cache) := by
  cases hhit : cacheGet cache (makeCacheKey brand model ref) with
  | some e =>
    by_cases hf : now - e.ts < CACHE_TTL_MS
    · constructor
      · intro hp
        simp [getLivePriceNoUrl, hhit, hf] at hp
      · intro hc
        simp [getLivePriceNoUrl, hhit, hf] at hc
    · cases exa with
      | error err =>
        constructor
        · intro _ _
          simp [getLivePriceNoUrl, hhit, hf]
        · intro hc
          simp [getLivePriceNoUrl, hhit, hf] at hc
      | ok d =>
        cases hx : extractCandidateFromExaResponse d with
        | none =>
          constructor
          · intro _ _
            simp [getLivePriceNoUrl, hhit, hf, hx]
          · intro hc
            simp [getLivePriceNoUrl, hhit, hf, hx] at hc
        | some cand =>
          constructor
          · intro _ hfail
            rcases hfail with ⟨err, herr⟩ | ⟨d2, hd2, hnone⟩
            · cases herr
            · cases hd2; rw [hx] at hnone; cases hnone
          · intro _
            refine ⟨⟨orElseN cand.value, orElseS cand.currency, orElseS cand.raw,
              jsOrD cand.source "exa-search", iso⟩, ?_, ?_⟩ <;>
              simp [getLivePriceNoUrl, hhit, hf, hx]
  | none =>
    cases exa with
    | error err =>
      constructor
      · intro _ _
        simp [getLivePriceNoUrl, hhit]
      · intro hc
        simp [getLivePriceNoUrl, hhit] at hc
    | ok d =>
      cases hx : extractCandidateFromExaResponse d with
      | none =>
        constructor
        · intro _ _
          simp [getLivePriceNoUrl, hhit, hx]
        · intro hc
          simp [getLivePriceNoUrl, hhit, hx] at hc
      | some cand =>
        constructor
        · intro _ hfail
          rcases hfail with ⟨err, herr⟩ | ⟨d2, hd2, hnone⟩
          · cases herr
          · cases hd2; rw [hx] at hnone; cases hnone
        · intro _
          refine ⟨⟨orElseN cand.value, orElseS cand.currency, orElseS cand.raw,
            jsOrD cand.source "exa-search", iso⟩, ?_, ?_⟩ <;>
            simp [getLivePriceNoUrl, hhit, hx]

/-- C2 witness: a throwing provider call on a cold cache. -/
theorem resolver_failure_returns_none_witness :
    getLivePriceNoUrl "a" "b" "c" (Except.error "boom") [] 0 "t" = ⟨none, [], true⟩ :=
  (resolver_failure_returns_none "a" "b" "c" (Except.error "boom") [] 0 "t").1
    (by decide) (Or.inl ⟨"boom", rfl⟩)

/-! ## C3: fresh cache hits -/

/-- C3: a cache entry younger than the TTL is returned as-is with the
cached marker and without consulting the provider; a successful
resolution followed, within the TTL window, by a second resolution for
the same normalized key returns the identical stored payload (marker
apart); once the entry's age reaches the TTL the provider is consulted
again. -/
theorem resolver_cache_fresh_hit :
    (∀ b m r exa cache now iso e,
      cacheGet cache (makeCacheKey b m r) = some e → now - e.ts < CACHE_TTL_MS →
      getLivePriceNoUrl b m r exa cache now iso = ⟨some (e.value, true), cache, false⟩) ∧
    (∀ b m r b2 m2 r2 exa exa2 cache cache2 now now2 iso iso2 out,
      makeCacheKey b m r = makeCacheKey b2 m2 r2 →
      getLivePriceNoUrl b m r exa cache now iso = ⟨some (out, false), cache2, true⟩ →
      now2 - now < CACHE_TTL_MS →
      getLivePriceNoUrl b2 m2 r2 exa2 cache2 now2 iso2 = ⟨some (out, true), cache2, false⟩) ∧
    (∀ b m r exa cache now iso e,
      cacheGet cache (makeCacheKey b m r) = some e → CACHE_TTL_MS ≤ now - e.ts →
      (getLivePriceNoUrl b m r exa cache now iso).providerCalled = true) := by
  refine ⟨?_, ?_, ?_⟩
  · intro b m r exa cache now iso e he hf
    simp [getLivePriceNoUrl, he, hf]
  · intro b m r b2 m2 r2 exa exa2 cache cache2 now now2 iso iso2 out hkey heq hfresh
    cases hhit : cacheGet cache (makeCacheKey b m r) with
    | some e =>
      by_cases hf : now - e.ts < CACHE_TTL_MS
      · simp [getLivePriceNoUrl, hhit, hf] at heq
      · cases exa with
        | error err => simp [getLivePriceNoUrl, hhit, hf] at heq
        | ok d =>
          cases hx : extractCandidateFromExaResponse d with
          | none => simp [getLivePriceNoUrl, hhit, hf, hx] at heq
          | some cand =>
            simp only [getLivePriceNoUrl, hhit, hf, if_false, hx,
              ResolveOut.mk.injEq, Option.some.injEq, Prod.mk.injEq] at heq
            obtain ⟨⟨hout, -⟩, hcache, -⟩ := heq
            have hg : cacheGet cache2 (makeCacheKey b2 m2 r2) = some ⟨now, out⟩ := by
              rw [← hkey, ← hcache, ← hout]
              simp [cacheGet, List.lookup]
            simp [getLivePriceNoUrl, hg, hfresh]
    | none =>
      cases exa with
      | error err => simp [getLivePriceNoUrl, hhit] at heq
      | ok d =>
        cases hx : extractCandidateFromExaResponse d with
        | none => simp [getLivePriceNoUrl, hhit, hx] at heq
        | some cand =>
          simp only [getLivePriceNoUrl, hhit, hx,
            ResolveOut.mk.injEq, Option.some.injEq, Prod.mk.injEq] at heq
          obtain ⟨⟨hout, -⟩, hcache, -⟩ := heq
          have hg : cacheGet cache2 (makeCacheKey b2 m2 r2) = some ⟨now, out⟩ := by
            rw [← hkey, ← hcache, ← hout]
            simp [cacheGet, List.lookup]
          simp [getLivePriceNoUrl, hg, hfresh]
  · intro b m r exa cache now iso e he hstale
    have hf : ¬ now - e.ts < CACHE_TTL_MS := Nat.not_lt.mpr hstale
    cases exa with
    | error err => simp [getLivePriceNoUrl, he, hf]
    | ok d =>
      cases hx : extractCandidateFromExaResponse d with
      | none => simp [getLivePriceNoUrl, he, hf, hx]
      | some cand => simp [getLivePriceNoUrl, he, hf, hx]

/-- C3 witness: a warm cache entry of age 0 is served back with the
cached marker, provider untouched. -/
theorem resolver_cache_fresh_hit_witness :
    cacheGet wCache (makeCacheKey "a" "b" "c") = some ⟨0, wOut⟩ ∧
    getLivePriceNoUrl "a" "b" "c" (Except.error "down") wCache 0 "t1"
      = ⟨some (wOut, true), wCache, false⟩ :=
  ⟨by decide,
    resolver_cache_fresh_hit.1 "a" "b" "c" (Except.error "down") wCache 0 "t1" ⟨0, wOut⟩
      (by decide) (by decide)⟩

/-! ## C9: zero vector-database matches -/

/-- C9: whenever the vector database returns zero matches (an absent or
empty `matches` array), the pipeline answers with the fixed
no-matching-catalog-entry message and stops: the live-price resolver is
never invoked and the provider is never consulted, whatever the
question's intent. -/
theorem POST_zero_matches (q : String) (emb : Embedding) (presp : Option PineconeResponse)
    (helper : Bool) (exa : Except String (Option ExaData)) (cache : Cache) (now : ℕ)
    (iso : String) (hq : jsTrimStr q ≠ "") (hzero : matchesOf presp = []) :
    POST q (Except.ok emb) (Except.ok presp) helper exa cache now iso
      = ⟨⟨some noCatalogMsg, none, none, none, 200⟩, cache, false, false⟩ := by
  have hq1 : q ≠ "" := fun h => hq (by rw [h]; rfl)
  have hmeta : extractTopMetadata presp = none := by
    unfold extractTopMetadata
    rw [hzero]
  simp [POST, hq1, hq, hmeta]

/-- C9 witness: a price-seeking question against an empty Pinecone
response, via the theorem. -/
theorem POST_zero_matches_witness :
    priceIntent "price of the thing" = true ∧
    POST "price of the thing" (Except.ok []) (Except.ok none) true
        (Except.error "x") [] 0 "t"
      = ⟨⟨some noCatalogMsg, none, none, none, 200⟩, [], false, false⟩ :=
  ⟨by decide,
    POST_zero_matches "price of the thing" [] none true (Except.error "x") [] 0 "t"
      (by decide) rfl⟩

/-! ## C8: the answer field -/

theorem str_append_ne_left (s t : String) (h : s ≠ "") : s ++ t ≠ "" := by
  intro he
  apply h
  have hd := congrArg String.data he
  rw [String.data_append] at hd
  exact (str_eq_empty_iff s).mpr (List.append_eq_nil.mp hd).1

theorem str_append_ne_right (s t : String) (h : t ≠ "") : s ++ t ≠ "" := by
  intro he
  apply h
  have hd := congrArg String.data he
  rw [String.data_append] at hd
  exact (str_eq_empty_iff t).mpr (List.append_eq_nil.mp hd).2

/-- C8 counterexample: with a non-empty question but a throwing
embedding collaborator, the handler returns the 500 `{error}` response,
which carries no `answer` field at all — the claim's quantification
over all collaborator behaviors fails. -/
theorem POST_error_no_answer :
    (POST "hi" (Except.error "embedding down") (Except.ok none) true
        (Except.error "x") [] 0 "t").resp.answer = none := by decide

/-- C8 amended: for every question that is non-empty after trimming,
and every behavior of the remaining collaborators, provided the
embedding and vector-database calls succeed the response carries an
`answer` field holding a non-empty string (the web-search provider may
still fail arbitrarily). -/
theorem POST_answer_nonempty (q : String) (emb : Embedding)
    (presp : Option PineconeResponse) (helper : Bool)
    (exa : Except String (Option ExaData)) (cache : Cache) (now : ℕ) (iso : String)
    (hq : jsTrimStr q ≠ "") :
    ∃ a, (POST q (Except.ok emb) (Except.ok presp) helper exa cache now iso).resp.answer
        = some a ∧ a ≠ "" := by
  have hq1 : q ≠ "" := fun h => hq (by rw [h]; rfl)
  cases hmeta : extractTopMetadata presp with
  | none =>
    refine ⟨noCatalogMsg, ?_, by decide⟩
    simp [POST, hq1, hq, hmeta]
  | some meta =>
    by_cases hint : priceIntent q
    · by_cases hh : helper
      · rcases hres : getLivePriceNoUrl meta.brand meta.model_name meta.reference_number
            exa cache now iso with ⟨res, c2, called⟩
        cases res with
        | some pair =>
          refine ⟨liveAnswerString pair.1, ?_, ?_⟩
          · simp [POST, hq1, hq, hmeta, hint, hh, hres]
          · unfold liveAnswerString
            repeat' apply str_append_ne_left
            decide
        | none =>
          refine ⟨degradedMsg meta, ?_, ?_⟩
          · simp [POST, hq1, hq, hmeta, hint, hh, hres]
          · unfold degradedMsg
            repeat' apply str_append_ne_left
            decide
      · refine ⟨helperUnavailableMsg meta, ?_, ?_⟩
        · simp [POST, hq1, hq, hmeta, hint, hh]
        · unfold helperUnavailableMsg
          repeat' apply str_append_ne_left
          decide
    · refine ⟨catalogMsg meta, ?_, ?_⟩
      · simp [POST, hq1, hq, hmeta, hint]
      · unfold catalogMsg
        apply str_append_ne_left
        apply str_append_ne_right
        decide

/-- C8 witness: a catalog-only question with healthy retrieval
collaborators, via the amended theorem. -/
theorem POST_answer_nonempty_witness :
    jsTrimStr "hello" ≠ "" ∧
    ∃ a, (POST "hello" (Except.ok []) (Except.ok none) true (Except.error "x")
        [] 0 "t").resp.answer = some a ∧ a ≠ "" :=
  ⟨by decide,
    POST_answer_nonempty "hello" [] none true (Except.error "x") [] 0 "t" (by decide)⟩

/-! ## C1: extraction priority order -/

/-- C1: candidate extraction is exactly the strict-priority composition
of stage (a) (top-level structured price), stage (b) (ranked results,
first entry with a truthy structured price or parsable text) and stage
(c) (top-level free text) — the first stage that yields a candidate
determines the result; in particular, whenever the response carries
both a truthy top-level structured price and a truthy per-result
structured price, the top-level one is returned. -/
theorem extract_fallback_priority :
    (∀ d : ExaData, extractCandidateFromExaResponse (some d)
        = Option.orElse (stageA d) (fun _ => Option.orElse (stageB d) (fun _ => stageC d))) ∧
    (∀ (d : ExaData) (p q : ExaPrice) (rs : List ExaResult) (r : ExaResult),
      d.price = some p → (truthyN p.value || truthyS p.raw) = true →
      d.results = some rs → r ∈ rs → r.price = some q →
      (truthyN q.value || truthyS q.raw) = true →
      extractCandidateFromExaResponse (some d)
        = some ⟨orElseN p.value, orElseS p.currency, orElseS p.raw, orElseS d.source⟩) := by
  constructor
  · rintro ⟨dp, dr, dt, ds⟩
    unfold extractCandidateFromExaResponse stageA stageB stageC
    cases dp with
    | some p =>
      cases hg : (truthyN p.value || truthyS p.raw) with
      | true => simp [hg, Option.orElse]
      | false =>
        simp only [hg, Bool.false_eq_true, if_false, Option.orElse]
        cases dr with
        | none => rfl
        | some rs =>
          cases he : rs.isEmpty with
          | true => simp [he]
          | false =>
            cases hfr : firstResult rs with
            | some c => simp [he, hfr]
            | none => simp [he, hfr]
    | none =>
      simp only [Option.orElse]
      cases dr with
      | none => rfl
      | some rs =>
        cases he : rs.isEmpty with
        | true => simp [he]
        | false =>
          cases hfr : firstResult rs with
          | some c => simp [he, hfr]
          | none => simp [he, hfr]
  · rintro ⟨dp, dr, dt, ds⟩
    intro p q rs r hp hg hrs hmem hq hqg
    cases hp
    unfold extractCandidateFromExaResponse
    simp [hg]

/-- C1 witness: a response with both a top-level and a per-result
structured price yields the top-level candidate, via the theorem. -/
theorem extract_fallback_priority_witness :
    extractCandidateFromExaResponse (some exaDataBoth)
      = some ⟨some 5, some "USD", some "five", some "https://top.example"⟩ :=
  (extract_fallback_priority.2 exaDataBoth ⟨some 5, some "USD", some "five"⟩
    ⟨some 7, some "EUR", some "seven"⟩
    [⟨some ⟨some 7, some "EUR", some "seven"⟩, none, none, none, some "https://r.example", none⟩]
    ⟨some ⟨some 7, some "EUR", some "seven"⟩, none, none, none, some "https://r.example", none⟩
    rfl (by decide) rfl (by decide) rfl (by decide)).trans (by decide)

/-! ## C4: the Submariner scenario -/

/-- C4 counterexample: in the spec scenario the matched substring is
`"$9,500"` (regex group 0, no interior space), so the provenance entry
differs from the claimed `"$ 9,500"`. -/
theorem POST_scenario_raw_differs :
    (POST q4 (Except.ok []) (Except.ok pineResp4) true (Except.ok exaData4) []
        0 iso4).resp.provenance = some [⟨chronoUrl, "$9,500"⟩] ∧
    ("$9,500" : String) ≠ "$ 9,500" := by
  constructor
  · decide
  · decide

/-- C4 amended: the scenario resolves value 9500 with currency `$` and
the result's URL as source, and the pipeline's price-bearing answer and
provenance carry them, with raw matched text `"$9,500"`. -/
theorem POST_scenario :
    (getLivePriceNoUrl "Rolex" "Submariner" "126610LN" (Except.ok exaData4) [] 0 iso4).result
      = some (⟨some 9500, some "$", some "$9,500", chronoUrl, iso4⟩, false) ∧
    (POST q4 (Except.ok []) (Except.ok pineResp4) true (Except.ok exaData4) []
        0 iso4).resp.answer
      = some ("Live listing: $ 9500 — source: https://www.chrono24.com/listing/123 (as of 2026-01-01T00:00:00.000Z).") ∧
    (POST q4 (Except.ok []) (Except.ok pineResp4) true (Except.ok exaData4) []
        0 iso4).resp.provenance = some [⟨chronoUrl, "$9,500"⟩] := by
  refine ⟨?_, ?_, ?_⟩ <;> decide

/-! ## Price-regex theory for C5 and C6 -/

theorem ciConsume_sound {alt : List Char} :
    ∀ {l m r : List Char}, ciConsume alt l = some (m, r) →
      m.map jsCharToLower = alt.map jsCharToLower ∧ l = m ++ r := by
  induction alt with
  | nil =>
    intro l m r h
    simp only [ciConsume, Option.some.injEq, Prod.mk.injEq] at h
    obtain ⟨hm, hr⟩ := h
    subst hm; subst hr
    exact ⟨rfl, rfl⟩
  | cons p ps ih =>
    intro l m r h
    cases l with
    | nil => simp [ciConsume] at h
    | cons c cs =>
      simp only [ciConsume] at h
      by_cases hc : jsCharToLower c = jsCharToLower p
      · rw [if_pos hc] at h
        cases hcc : ciConsume ps cs with
        | none => rw [hcc] at h; cases h
        | some pr =>
          obtain ⟨m', r'⟩ := pr
          rw [hcc] at h
          simp only [Option.some.injEq, Prod.mk.injEq] at h
          obtain ⟨hm, hr⟩ := h
          subst hm; subst hr
          obtain ⟨h1, h2⟩ := ih hcc
          refine ⟨?_, ?_⟩
          · simp [List.map_cons, h1, hc]
          · simp [h2]
      · rw [if_neg hc] at h; cases h

theorem ciConsume_of_ciEq {alt : List Char} :
    ∀ {m : List Char}, m.map jsCharToLower = alt.map jsCharToLower →
      ∀ r, ciConsume alt (m ++ r) = some (m, r) := by
  induction alt with
  | nil =>
    intro m h r
    cases m with
    | nil => rfl
    | cons a as => simp at h
  | cons p ps ih =>
    intro m h r
    cases m with
    | nil => simp at h
    | cons a as =>
      simp only [List.map_cons, List.cons.injEq] at h
      simp only [List.cons_append, ciConsume, h.1, if_true, List.append_eq]
      rw [ih h.2 r]

theorem ciConsume_head_ne {p c : Char} {ps cs : List Char}
    (h : jsCharToLower c ≠ jsCharToLower p) : ciConsume (p :: ps) (c :: cs) = none := by
  simp [ciConsume, h]

theorem firstSome_sound {alts : List (List Char)}
    {f : List Char → Option (List Char × List Char)} {b : List Char × List Char} :
    firstSome alts f = some b → ∃ a ∈ alts, f a = some b := by
  induction alts with
  | nil => intro h; cases h
  | cons a as ih =>
    intro h
    simp only [firstSome] at h
    cases hfa : f a with
    | some b2 =>
      rw [hfa] at h
      injection h with h
      subst h
      exact ⟨a, List.mem_cons_self a as, hfa⟩
    | none =>
      rw [hfa] at h
      obtain ⟨a2, ha2, hfa2⟩ := ih h
      exact ⟨a2, List.mem_cons_of_mem a ha2, hfa2⟩

theorem matchCurrencyAt_sound {l cur rest : List Char} :
    matchCurrencyAt l = some (cur, rest) →
      (∃ alt ∈ currencyAlts, cur.map jsCharToLower = alt.map jsCharToLower) ∧
        l = cur ++ rest := by
  intro h
  obtain ⟨alt, halt, hf⟩ := firstSome_sound h
  obtain ⟨h1, h2⟩ := ciConsume_sound hf
  exact ⟨⟨alt, halt, h1⟩, h2⟩

theorem currencyAlts_eq :
    currencyAlts = [['U','S','D'], ['E','U','R'], ['G','B','P'], ['C','H','F'],
      ['I','N','R'], ['$'], ['€'], ['£'], ['₹']] := rfl

theorem matchCurrencyAt_complete {alt m1 : List Char} (halt : alt ∈ currencyAlts)
    (h : m1.map jsCharToLower = alt.map jsCharToLower) (rest : List Char) :
    matchCurrencyAt (m1 ++ rest) = some (m1, rest) := by
  have hcons := ciConsume_of_ciEq h rest
  rw [currencyAlts_eq] at halt
  simp only [List.mem_cons, List.not_mem_nil, or_false] at halt
  rcases halt with rfl | rfl | rfl | rfl | rfl | rfl | rfl | rfl | rfl
  · have h' : m1.map jsCharToLower = ['u', 's', 'd'] := by rw [h]; decide
    cases m1 with
    | nil => simp at h'
    | cons a t =>
      simp only [List.map_cons, List.cons.injEq] at h'
      simp only [List.cons_append] at hcons ⊢
      simp only [matchCurrencyAt, currencyAlts_eq, firstSome, hcons]
  · have h' : m1.map jsCharToLower = ['e', 'u', 'r'] := by rw [h]; decide
    cases m1 with
    | nil => simp at h'
    | cons a t =>
      simp only [List.map_cons, List.cons.injEq] at h'
      simp only [List.cons_append] at hcons ⊢
      have h1 : ciConsume ['U', 'S', 'D'] (a :: (t ++ rest)) = none :=
        ciConsume_head_ne (by rw [h'.1]; decide)
      simp only [matchCurrencyAt, currencyAlts_eq, firstSome, h1, hcons]
  · have h' : m1.map jsCharToLower = ['g', 'b', 'p'] := by rw [h]; decide
    cases m1 with
    | nil => simp at h'
    | cons a t =>
      simp only [List.map_cons, List.cons.injEq] at h'
      simp only [List.cons_append] at hcons ⊢
      have h1 : ciConsume ['U', 'S', 'D'] (a :: (t ++ rest)) = none :=
        ciConsume_head_ne (by rw [h'.1]; decide)
      have h2 : ciConsume ['E', 'U', 'R'] (a :: (t ++ rest)) = none :=
        ciConsume_head_ne (by rw [h'.1]; decide)
      simp only [matchCurrencyAt, currencyAlts_eq, firstSome, h1, h2, hcons]
  · have h' : m1.map jsCharToLower = ['c', 'h', 'f'] := by rw [h]; decide
    cases m1 with
    | nil => simp at h'
    | cons a t =>
      simp only [List.map_cons, List.cons.injEq] at h'
      simp only [List.cons_append] at hcons ⊢
      have h1 : ciConsume ['U', 'S', 'D'] (a :: (t ++ rest)) = none :=
        ciConsume_head_ne (by rw [h'.1]; decide)
      have h2 : ciConsume ['E', 'U', 'R'] (a :: (t ++ rest)) = none :=
        ciConsume_head_ne (by rw [h'.1]; decide)
      have h3 : ciConsume ['G', 'B', 'P'] (a :: (t ++ rest)) = none :=
        ciConsume_head_ne (by rw [h'.1]; decide)
      simp only [matchCurrencyAt, currencyAlts_eq, firstSome, h1, h2, h3, hcons]
  · have h' : m1.map jsCharToLower = ['i', 'n', 'r'] := by rw [h]; decide
    cases m1 with
    | nil => simp at h'
    | cons a t =>
      simp only [List.map_cons, List.cons.injEq] at h'
      simp only [List.cons_append] at hcons ⊢
      have h1 : ciConsume ['U', 'S', 'D'] (a :: (t ++ rest)) = none :=
        ciConsume_head_ne (by rw [h'.1]; decide)
      have h2 : ciConsume ['E', 'U', 'R'] (a :: (t ++ rest)) = none :=
        ciConsume_head_ne (by rw [h'.1]; decide)
      have h3 : ciConsume ['G', 'B', 'P'] (a :: (t ++ rest)) = none :=
        ciConsume_head_ne (by rw [h'.1]; decide)
      have h4 : ciConsume ['C', 'H', 'F'] (a :: (t ++ rest)) = none :=
        ciConsume_head_ne (by rw [h'.1]; decide)
      simp only [matchCurrencyAt, currencyAlts_eq, firstSome, h1, h2, h3, h4, hcons]
  · have h' : m1.map jsCharToLower = ['$'] := by rw [h]; decide
    cases m1 with
    | nil => simp at h'
    | cons a t =>
      simp only [List.map_cons, List.cons.injEq] at h'
      simp only [List.cons_append] at hcons ⊢
      have h1 : ciConsume ['U', 'S', 'D'] (a :: (t ++ rest)) = none :=
        ciConsume_head_ne (by rw [h'.1]; decide)
      have h2 : ciConsume ['E', 'U', 'R'] (a :: (t ++ rest)) = none :=
        ciConsume_head_ne (by rw [h'.1]; decide)
      have h3 : ciConsume ['G', 'B', 'P'] (a :: (t ++ rest)) = none :=
        ciConsume_head_ne (by rw [h'.1]; decide)
      have h4 : ciConsume ['C', 'H', 'F'] (a :: (t ++ rest)) = none :=
        ciConsume_head_ne (by rw [h'.1]; decide)
      have h5 : ciConsume ['I', 'N', 'R'] (a :: (t ++ rest)) = none :=
        ciConsume_head_ne (by rw [h'.1]; decide)
      simp only [matchCurrencyAt, currencyAlts_eq, firstSome, h1, h2, h3, h4, h5, hcons]
  · have h' : m1.map jsCharToLower = ['€'] := by rw [h]; decide
    cases m1 with
    | nil => simp at h'
    | cons a t =>
      simp only [List.map_cons, List.cons.injEq] at h'
      simp only [List.cons_append] at hcons ⊢
      have h1 : ciConsume ['U', 'S', 'D'] (a :: (t ++ rest)) = none :=
        ciConsume_head_ne (by rw [h'.1]; decide)
      have h2 : ciConsume ['E', 'U', 'R'] (a :: (t ++ rest)) = none :=
        ciConsume_head_ne (by rw [h'.1]; decide)
      have h3 : ciConsume ['G', 'B', 'P'] (a :: (t ++ rest)) = none :=
        ciConsume_head_ne (by rw [h'.1]; decide)
      have h4 : ciConsume ['C', 'H', 'F'] (a :: (t ++ rest)) = none :=
        ciConsume_head_ne (by rw [h'.1]; decide)
      have h5 : ciConsume ['I', 'N', 'R'] (a :: (t ++ rest)) = none :=
        ciConsume_head_ne (by rw [h'.1]; decide)
      have h6 : ciConsume ['$'] (a :: (t ++ rest)) = none :=
        ciConsume_head_ne (by rw [h'.1]; decide)
      simp only [matchCurrencyAt, currencyAlts_eq, firstSome, h1, h2, h3, h4, h5, h6, hcons]
  · have h' : m1.map jsCharToLower = ['£'] := by rw [h]; decide
    cases m1 with
    | nil => simp at h'
    | cons a t =>
      simp only [List.map_cons, List.cons.injEq] at h'
      simp only [List.cons_append] at hcons ⊢
      have h1 : ciConsume ['U', 'S', 'D'] (a :: (t ++ rest)) = none :=
        ciConsume_head_ne (by rw [h'.1]; decide)
      have h2 : ciConsume ['E', 'U', 'R'] (a :: (t ++ rest)) = none :=
        ciConsume_head_ne (by rw [h'.1]; decide)
      have h3 : ciConsume ['G', 'B', 'P'] (a :: (t ++ rest)) = none :=
        ciConsume_head_ne (by rw [h'.1]; decide)
      have h4 : ciConsume ['C', 'H', 'F'] (a :: (t ++ rest)) = none :=
        ciConsume_head_ne (by rw [h'.1]; decide)
      have h5 : ciConsume ['I', 'N', 'R'] (a :: (t ++ rest)) = none :=
        ciConsume_head_ne (by rw [h'.1]; decide)
      have h6 : ciConsume ['$'] (a :: (t ++ rest)) = none :=
        ciConsume_head_ne (by rw [h'.1]; decide)
      have h7 : ciConsume ['€'] (a :: (t ++ rest)) = none :=
        ciConsume_head_ne (by rw [h'.1]; decide)
      simp only [matchCurrencyAt, currencyAlts_eq, firstSome, h1, h2, h3, h4, h5, h6, h7,
        hcons]
  · have h' : m1.map jsCharToLower = ['₹'] := by rw [h]; decide
    cases m1 with
    | nil => simp at h'
    | cons a t =>
      simp only [List.map_cons, List.cons.injEq] at h'
      simp only [List.cons_append] at hcons ⊢
      have h1 : ciConsume ['U', 'S', 'D'] (a :: (t ++ rest)) = none :=
        ciConsume_head_ne (by rw [h'.1]; decide)
      have h2 : ciConsume ['E', 'U', 'R'] (a :: (t ++ rest)) = none :=
        ciConsume_head_ne (by rw [h'.1]; decide)
      have h3 : ciConsume ['G', 'B', 'P'] (a :: (t ++ rest)) = none :=
        ciConsume_head_ne (by rw [h'.1]; decide)
      have h4 : ciConsume ['C', 'H', 'F'] (a :: (t ++ rest)) = none :=
        ciConsume_head_ne (by rw [h'.1]; decide)
      have h5 : ciConsume ['I', 'N', 'R'] (a :: (t ++ rest)) = none :=
        ciConsume_head_ne (by rw [h'.1]; decide)
      have h6 : ciConsume ['$'] (a :: (t ++ rest)) = none :=
        ciConsume_head_ne (by rw [h'.1]; decide)
      have h7 : ciConsume ['€'] (a :: (t ++ rest)) = none :=
        ciConsume_head_ne (by rw [h'.1]; decide)
      have h8 : ciConsume ['£'] (a :: (t ++ rest)) = none :=
        ciConsume_head_ne (by rw [h'.1]; decide)
      simp only [matchCurrencyAt, currencyAlts_eq, firstSome, h1, h2, h3, h4, h5, h6, h7,
        h8, hcons]

theorem isNumChar_not_space {c : Char} (h : isNumChar c = true) : isJsSpace c = false := by
  cases hs : isJsSpace c
  · rfl
  · exfalso
    simp only [isJsSpace, Bool.or_eq_true, decide_eq_true_eq, or_assoc] at hs
    rcases hs with rfl | rfl | rfl | rfl | rfl | rfl <;> exact absurd h (by decide)

theorem takeWhile_all_append {p : Char → Bool} {m : List Char} (suf : List Char)
    (h : ∀ c ∈ m, p c = true) : (m ++ suf).takeWhile p = m ++ suf.takeWhile p := by
  induction m with
  | nil => rfl
  | cons a t ih =>
    rw [List.cons_append, List.takeWhile_cons, if_pos (h a (List.mem_cons_self a t)),
      List.cons_append, ih (fun c hc => h c (List.mem_cons_of_mem a hc))]

theorem matchAfterCurrency_sound {rest consumed num : List Char}
    (h : matchAfterCurrency rest = some (consumed, num)) :
    (∀ c ∈ num, isNumChar c = true) ∧ 2 ≤ num.length ∧
      ∃ suf, rest = consumed ++ suf ∧
        ((∃ w, isJsSpace w = true ∧ consumed = w :: num) ∨ consumed = num) := by
  cases rest with
  | nil => cases h
  | cons c cs =>
    simp only [matchAfterCurrency] at h
    by_cases hsp : isJsSpace c
    · rw [if_pos hsp] at h
      by_cases hlen : 2 ≤ (cs.takeWhile isNumChar).length
      · rw [if_pos hlen] at h
        simp only [Option.some.injEq, Prod.mk.injEq] at h
        obtain ⟨hcons, hnum⟩ := h
        subst hnum
        subst hcons
        refine ⟨fun x hx => List.mem_takeWhile_imp hx, hlen,
          cs.dropWhile isNumChar, ?_, Or.inl ⟨c, hsp, rfl⟩⟩
        simp [List.takeWhile_append_dropWhile]
      · rw [if_neg hlen] at h; cases h
    · rw [if_neg hsp] at h
      by_cases hlen : 2 ≤ ((c :: cs).takeWhile isNumChar).length
      · rw [if_pos hlen] at h
        simp only [Option.some.injEq, Prod.mk.injEq] at h
        obtain ⟨hcons, hnum⟩ := h
        subst hnum
        subst hcons
        refine ⟨fun x hx => List.mem_takeWhile_imp hx, hlen,
          (c :: cs).dropWhile isNumChar, ?_, Or.inr rfl⟩
        simp [List.takeWhile_append_dropWhile]
      · rw [if_neg hlen] at h; cases h

theorem matchAfterCurrency_ws {w : Char} {m2 : List Char} (suf : List Char) (hw : isJsSpace w = true)
    (hnum : ∀ c ∈ m2, isNumChar c = true) (hlen : 2 ≤ m2.length) :
    matchAfterCurrency (w :: (m2 ++ suf))
      = some (w :: (m2 ++ suf.takeWhile isNumChar), m2 ++ suf.takeWhile isNumChar) := by
  have hlen2 : 2 ≤ (m2 ++ suf.takeWhile isNumChar).length := by
    rw [List.length_append]; omega
  simp only [matchAfterCurrency, hw, if_true, takeWhile_all_append suf hnum, hlen2]

theorem matchAfterCurrency_nows {m2 : List Char} (suf : List Char)
    (hnum : ∀ c ∈ m2, isNumChar c = true) (hlen : 2 ≤ m2.length) :
    matchAfterCurrency (m2 ++ suf)
      = some (m2 ++ suf.takeWhile isNumChar, m2 ++ suf.takeWhile isNumChar) := by
  cases m2 with
  | nil => simp at hlen
  | cons a t =>
    have ha : isNumChar a = true := hnum a (List.mem_cons_self a t)
    have hsp : isJsSpace a = false := isNumChar_not_space ha
    have ht : ((a :: t) ++ suf).takeWhile isNumChar = (a :: t) ++ suf.takeWhile isNumChar :=
      takeWhile_all_append suf hnum
    simp only [List.cons_append] at ht ⊢
    have hlen2 : 2 ≤ (a :: (t ++ suf.takeWhile isNumChar)).length := by
      simp only [List.length_cons, List.length_append]
      simp only [List.length_cons] at hlen
      omega
    simp only [matchAfterCurrency, hsp, Bool.false_eq_true, if_false, ht, hlen2, if_true]

theorem findPriceMatch_sound {l m0 m1 m2 : List Char} :
    findPriceMatch l = some (m0, m1, m2) →
      (∃ pre suf, l = pre ++ m0 ++ suf) ∧
      (∃ alt ∈ currencyAlts, m1.map jsCharToLower = alt.map jsCharToLower) ∧
      ((∃ w, isJsSpace w = true ∧ m0 = m1 ++ w :: m2) ∨ m0 = m1 ++ m2) ∧
      (∀ c ∈ m2, isNumChar c = true) ∧ 2 ≤ m2.length := by
  induction l with
  | nil => intro h; cases h
  | cons c cs ih =>
    intro h
    simp only [findPriceMatch] at h
    cases hm : matchCurrencyAt (c :: cs) with
    | none =>
      simp only [hm] at h
      obtain ⟨⟨pre, suf, hps⟩, rest⟩ := ih h
      exact ⟨⟨c :: pre, suf, by rw [hps]; simp⟩, rest⟩
    | some cr =>
      obtain ⟨cur, rest⟩ := cr
      simp only [hm] at h
      cases ha : matchAfterCurrency rest with
      | none =>
        simp only [ha] at h
        obtain ⟨⟨pre, suf, hps⟩, rest2⟩ := ih h
        exact ⟨⟨c :: pre, suf, by rw [hps]; simp⟩, rest2⟩
      | some cn =>
        obtain ⟨consumed, num⟩ := cn
        simp only [ha, Option.some.injEq, Prod.mk.injEq] at h
        obtain ⟨h0, h1, h2⟩ := h
        subst h0; subst h1; subst h2
        obtain ⟨⟨alt, halt, hci⟩, hlcs⟩ := matchCurrencyAt_sound hm
        obtain ⟨hnum, hlen, suf, hrest, hshape⟩ := matchAfterCurrency_sound ha
        refine ⟨⟨[], suf, ?_⟩, ⟨alt, halt, hci⟩, ?_, hnum, hlen⟩
        · rw [hlcs, hrest]; simp [List.append_assoc]
        · rcases hshape with ⟨w, hw, hc⟩ | hc
          · exact Or.inl ⟨w, hw, by rw [hc]⟩
          · exact Or.inr (by rw [hc])

theorem findPriceMatch_none_suffix {pre l : List Char}
    (h : findPriceMatch (pre ++ l) = none) : findPriceMatch l = none := by
  induction pre with
  | nil => exact h
  | cons c cs ih =>
    apply ih
    simp only [List.cons_append, findPriceMatch, List.append_eq] at h
    cases hm : matchCurrencyAt (c :: (cs ++ l)) with
    | none => simp only [hm] at h; exact h
    | some cr =>
      obtain ⟨cur, rest⟩ := cr
      simp only [hm] at h
      cases ha : matchAfterCurrency rest with
      | none => simp only [ha] at h; exact h
      | some cn =>
        obtain ⟨consumed, num⟩ := cn
        simp only [ha] at h
        cases h

theorem m1_ne_nil {alt m1 : List Char} (halt : alt ∈ currencyAlts)
    (hci : m1.map jsCharToLower = alt.map jsCharToLower) : m1 ≠ [] := by
  intro he
  subst he
  have halt' : alt = [] := List.map_eq_nil_iff.mp hci.symm
  rw [currencyAlts_eq] at halt
  subst halt'
  simp at halt

theorem findPriceMatch_isSome_of_pattern {l : List Char} (h : HasPricePattern l) :
    findPriceMatch l ≠ none := by
  obtain ⟨pre, m1, wsOpt, m2, suf, alt, halt, hci, hws, hnum, hlen, rfl⟩ := h
  intro hnone
  have h2 : findPriceMatch (m1 ++ (wsOpt ++ (m2 ++ suf))) = none :=
    @findPriceMatch_none_suffix pre _ (by simpa [List.append_assoc] using hnone)
  obtain ⟨a, t, rfl⟩ := List.exists_cons_of_ne_nil (m1_ne_nil halt hci)
  rcases hws with rfl | ⟨w, hw, rfl⟩
  · have hcur := matchCurrencyAt_complete halt hci (m2 ++ suf)
    have hafter := matchAfterCurrency_nows suf hnum hlen
    simp only [List.nil_append, List.cons_append] at h2 hcur
    simp only [findPriceMatch, hcur, hafter] at h2
    exact Option.noConfusion h2
  · have hcur := matchCurrencyAt_complete halt hci (w :: (m2 ++ suf))
    have hafter := matchAfterCurrency_ws suf hw hnum hlen
    simp only [List.cons_append, List.singleton_append, List.nil_append] at h2 hcur
    simp only [findPriceMatch, hcur, hafter] at h2
    exact Option.noConfusion h2

theorem hasPattern_iff {l : List Char} : HasPricePattern l ↔ findPriceMatch l ≠ none := by
  constructor
  · exact findPriceMatch_isSome_of_pattern
  · intro hne
    cases hf : findPriceMatch l with
    | none => exact absurd hf hne
    | some t3 =>
      obtain ⟨m0, m1, m2⟩ := t3
      obtain ⟨⟨pre, suf, hl⟩, ⟨alt, halt, hci⟩, hshape, hnum, hlen⟩ := findPriceMatch_sound hf
      rcases hshape with ⟨w, hw, hm0⟩ | hm0
      · exact ⟨pre, m1, [w], m2, suf, alt, halt, hci, Or.inr ⟨w, hw, rfl⟩, hnum, hlen,
          by rw [hl, hm0]; simp [List.append_assoc]⟩
      · exact ⟨pre, m1, [], m2, suf, alt, halt, hci, Or.inl rfl, hnum, hlen,
          by rw [hl, hm0]; simp [List.append_assoc]⟩

theorem findPriceMatch_self {alt m1 wsOpt m2 : List Char} (halt : alt ∈ currencyAlts)
    (hci : m1.map jsCharToLower = alt.map jsCharToLower)
    (hws : wsOpt = [] ∨ ∃ w, isJsSpace w = true ∧ wsOpt = [w])
    (hnum : ∀ c ∈ m2, isNumChar c = true) (hlen : 2 ≤ m2.length) :
    findPriceMatch (m1 ++ wsOpt ++ m2) = some (m1 ++ wsOpt ++ m2, m1, m2) := by
  obtain ⟨a, t, rfl⟩ := List.exists_cons_of_ne_nil (m1_ne_nil halt hci)
  rcases hws with rfl | ⟨w, hw, rfl⟩
  · have hcur := matchCurrencyAt_complete halt hci m2
    have hafter := matchAfterCurrency_nows [] hnum hlen
    simp only [List.append_nil, List.takeWhile_nil] at hafter
    simp only [List.nil_append, List.append_nil, List.cons_append] at hcur ⊢
    simp only [findPriceMatch, hcur, hafter, List.cons_append]
  · have hcur := matchCurrencyAt_complete halt hci (w :: m2)
    have hafter := matchAfterCurrency_ws [] hw hnum hlen
    simp only [List.append_nil, List.takeWhile_nil] at hafter
    simp only [List.cons_append, List.singleton_append, List.append_assoc,
      List.nil_append] at hcur ⊢
    simp only [findPriceMatch, hcur, hafter, List.cons_append]

theorem parse_eq {text : String} {m0 m1 m2 : List Char}
    (ht : text ≠ "") (hf : findPriceMatch text.data = some (m0, m1, m2)) :
    parsePriceFromText text
      = some ⟨jsParseFloat ((m2.filter fun c => !(isJsSpace c)).filter fun c => !(c = ',')),
          String.mk m1, String.mk m0⟩ := by
  unfold parsePriceFromText
  rw [if_neg ht, hf]
  cases hpf : jsParseFloat ((m2.filter fun c => !(isJsSpace c)).filter fun c => !(c = ',')) with
  | none => simp only [hpf]
  | some v => simp only [hpf]

/-- C5: when the regex finds a currency marker adjacent (optionally
one whitespace) to a numeric token and that token parses to NaN, the
parser returns the partial `{raw, currency}` candidate with `value`
absent rather than `none`; and when no currency-adjacent numeric
pattern occurs anywhere in the text, the parser returns `none`. -/
theorem parse_partial_and_none :
    (∀ (text : String) (m0 m1 m2 : List Char),
      findPriceMatch text.data = some (m0, m1, m2) →
      jsParseFloat ((m2.filter fun c => !(isJsSpace c)).filter fun c => !(c = ',')) = none →
      parsePriceFromText text = some ⟨none, String.mk m1, String.mk m0⟩) ∧
    (∀ text : String, ¬ HasPricePattern text.data → parsePriceFromText text = none) := by
  constructor
  · intro text m0 m1 m2 hf hnan
    have ht : text ≠ "" := by
      intro he
      rw [he] at hf
      cases hf
    rw [parse_eq ht hf, hnan]
  · intro text hno
    have hf : findPriceMatch text.data = none := by
      cases hf : findPriceMatch text.data with
      | none => rfl
      | some t3 =>
        exact absurd (hasPattern_iff.mpr (by rw [hf]; simp)) hno
    by_cases ht : text = ""
    · rw [ht]; rfl
    · unfold parsePriceFromText
      rw [if_neg ht, hf]

/-- C6: re-running the parser on the raw matched substring of any
successful parse re-extracts the same value and currency. -/
theorem parse_roundtrip (text : String) (c : PriceCandidate)
    (h : parsePriceFromText text = some c) :
    ∃ c2, parsePriceFromText c.raw = some c2 ∧ c2.value = c.value ∧ c2.currency = c.currency := by
  by_cases ht : text = ""
  · rw [ht] at h; cases h
  · cases hf : findPriceMatch text.data with
    | none =>
      have : parsePriceFromText text = none := by
        unfold parsePriceFromText
        rw [if_neg ht, hf]
      rw [this] at h
      cases h
    | some t3 =>
      obtain ⟨m0, m1, m2⟩ := t3
      rw [parse_eq ht hf] at h
      injection h with h
      subst h
      obtain ⟨-, ⟨alt, halt, hci⟩, hshape, hnum, hlen⟩ := findPriceMatch_sound hf
      have hm0 : ∃ wsOpt, (wsOpt = [] ∨ ∃ w, isJsSpace w = true ∧ wsOpt = [w]) ∧
          m0 = m1 ++ wsOpt ++ m2 := by
        rcases hshape with ⟨w, hw, he⟩ | he
        · exact ⟨[w], Or.inr ⟨w, hw, rfl⟩, by rw [he]; simp⟩
        · exact ⟨[], Or.inl rfl, by rw [he]; simp⟩
      obtain ⟨wsOpt, hws, hm0e⟩ := hm0
      have hraw_ne : String.mk m0 ≠ "" := by
        intro he
        have hd := (str_eq_empty_iff _).mp he
        rw [hm0e] at hd
        exact m1_ne_nil halt hci (List.append_eq_nil.mp (List.append_eq_nil.mp hd).1).1
      have hfm : findPriceMatch (String.mk m0).data = some (m0, m1, m2) := by
        show findPriceMatch m0 = some (m0, m1, m2)
        rw [hm0e]
        exact findPriceMatch_self halt hci hws hnum hlen
      exact ⟨_, parse_eq hraw_ne hfm, rfl, rfl⟩

/-- C5 witness: `"$,,"` keeps partial evidence; `"hello"` yields
nothing, via the theorem. -/
theorem parse_partial_and_none_witness :
    parsePriceFromText "$,," = some ⟨none, "$", "$,,"⟩ ∧
    parsePriceFromText "hello" = none :=
  ⟨(parse_partial_and_none.1 "$,," ['$', ',', ','] ['$'] [',', ','] (by decide)
      (by decide)).trans (by decide),
   parse_partial_and_none.2 "hello" (fun hp => (hasPattern_iff.mp hp) (by decide))⟩

/-- C6 witness: round-trip on the match inside `"x $1200 y"`, via the
theorem. -/
theorem parse_roundtrip_witness :
    ∃ c2, parsePriceFromText "$1200" = some c2 ∧
      c2.value = some (1200 : ℚ) ∧ c2.currency = "$" :=
  parse_roundtrip "x $1200 y" ⟨some 1200, "$", "$1200"⟩ (by decide)
